import Mathlib

/-!
Verification of the ingestion pipeline of `src/worker/ingest.py`.

The source program reads a directory of documents, splits each document's
text into fixed-size overlapping chunks (`SentenceSplitter(chunk_size=512,
chunk_overlap=64)`), embeds the chunks and upserts the resulting records
into a vector store, and finally persists the storage context.  The
segmentation policy, the chunk-identity contract, the upsert semantics of
the vector store and the error taxonomy are supplied by library code that
is not part of the repository; those parts are modelled here from the
specification (each such definition carries a `Modelled from the spec:`
doc comment).  The straight-line phase structure (load everything, then
segment everything, then embed/index everything, then persist once) and
the constant configuration come directly from the source.

Text is modelled as `List Char`; machine strings are exactly finite
character sequences, so nothing is lost.
-/

set_option maxRecDepth 100000

namespace Ingest

/-- Modelled from the spec: the `Document` record of §3, produced by the
`DocumentSource` (`SimpleDirectoryReader` in the source).  The `supported`
flag models whether the file format has an extractor; unsupported files
are recorded as `UnsupportedFormat` failures (§6). -/
structure Document where
  document_id : List Char
  raw_text : List Char
  supported : Bool
deriving DecidableEq, Repr

/-- Modelled from the spec: the Segmenter configuration of §4.1
(`chunk_size`, `chunk_overlap`).  Both fields are the non-negative
integers of the spec. -/
structure Config where
  chunk_size : Nat
  chunk_overlap : Nat
deriving DecidableEq, Repr

/-- Validity precondition of §4.1: `chunk_size > 0` and
`0 ≤ chunk_overlap < chunk_size`. -/
def Config.valid (c : Config) : Prop :=
  0 < c.chunk_size ∧ c.chunk_overlap < c.chunk_size

instance (c : Config) : Decidable c.valid := by
  unfold Config.valid; infer_instance

/-- The configuration hard-coded at line 7 of `src/worker/ingest.py`:
`SentenceSplitter(chunk_size=512, chunk_overlap=64)`. -/
def splitterConfig : Config := { chunk_size := 512, chunk_overlap := 64 }

/-- Modelled from the spec: error taxonomy of §7. -/
inductive IngestError where
  | ConfigError
  | UnsupportedFormat
  | SegmentationError
  | EmbeddingError
  | StoreUnavailableError
  | StoreWriteError
  | SchemaMismatchError
  | Cancelled
deriving DecidableEq, Repr

/-- Modelled from the spec: the `Chunk` record of §3. -/
structure Chunk where
  document_id : List Char
  sequence_index : Nat
  text : List Char
  char_start : Nat
  char_end : Nat
deriving DecidableEq, Repr

/-- Modelled from the spec: the window walk of §4.1.  Starting at `start`,
emit the window `[start, start + n)`; if the window reaches the end of the
text, truncate it to `[start, len)` and stop, otherwise advance the start
by `stride = n - k`.  The `fuel` argument bounds the recursion; every call
site supplies `fuel ≥ len - start`, which suffices because a valid
configuration advances `start` by at least one per step. -/
def chunkSpansAux (n stride len : Nat) : Nat → Nat → List (Nat × Nat)
  | 0, _ => []
  | fuel + 1, start =>
    if len ≤ start + n then [(start, len)]
    else (start, start + n) :: chunkSpansAux n stride len fuel (start + stride)

/-- Modelled from the spec: the list of `(char_start, char_end)` spans the
Segmenter produces for a text of length `len` under `chunk_size = n`,
`chunk_overlap = k`.  A text of length 0 produces no chunk (§4.1: no
trailing empty chunk is emitted). -/
def chunkSpans (n k len : Nat) : List (Nat × Nat) :=
  if len = 0 then [] else chunkSpansAux n (n - k) len len 0

/-- The slice `[s, e)` of a text. -/
def sliceL (t : List Char) (s e : Nat) : List Char :=
  (t.drop s).take (e - s)

/-- Pair each element of a list with its position, starting at `i`. -/
def indexFrom {α : Type} : Nat → List α → List (Nat × α)
  | _, [] => []
  | i, a :: as => (i, a) :: indexFrom (i + 1) as

/-- Modelled from the spec: the chunks of one document under a valid
configuration — spans by the §4.1 window walk, `sequence_index` counting
from 0 in emission order, text the corresponding slice of the raw text. -/
def chunksOf (cfg : Config) (d : Document) : List Chunk :=
  (indexFrom 0 (chunkSpans cfg.chunk_size cfg.chunk_overlap d.raw_text.length)).map
    (fun p =>
      { document_id := d.document_id
        sequence_index := p.1
        text := sliceL d.raw_text p.2.1 p.2.2
        char_start := p.2.1
        char_end := p.2.2 })

/-- Modelled from the spec: `Segmenter.segment(document, config)` of §4.1.
Fails with `ConfigError` when `chunk_overlap ≥ chunk_size` or
`chunk_size ≤ 0`; otherwise pure and total. -/
def segment (d : Document) (cfg : Config) : Except IngestError (List Chunk) :=
  if cfg.chunk_size ≤ cfg.chunk_overlap ∨ cfg.chunk_size = 0 then
    .error .ConfigError
  else
    .ok (chunksOf cfg d)

/-- Length-prefixed field encoding used by the chunk-identity model: a
unary run of `'L'` of the field's length, a delimiter `'D'`, then the
field.  Prefix-free, hence injective even under concatenation. -/
def encodeField (s : List Char) : List Char :=
  List.replicate s.length 'L' ++ 'D' :: s

/-- Modelled from the spec: `ChunkIdentity.identify(document_id,
sequence_index, text)` of §4.2.  The spec recommends a content hash of the
concatenation of the three fields; collision resistance is idealized as
genuine injectivity, realized by a prefix-free encoding of the fields. -/
def identify (docId : List Char) (idx : Nat) (text : List Char) : List Char :=
  encodeField docId ++ encodeField (List.replicate idx 'I') ++ text

/-- Modelled from the spec: the persisted `IndexRecord` of §3/§6. -/
structure Record where
  id : List Char
  vector : List Int
  text : List Char
  document_id : List Char
  sequence_index : Nat
deriving DecidableEq, Repr

/-- Modelled from the spec: build the `IndexRecord` for a chunk — id from
`identify`, vector from the (opaque) embedder. -/
def toRecord (embed : List Char → List Int) (c : Chunk) : Record :=
  { id := identify c.document_id c.sequence_index c.text
    vector := embed c.text
    text := c.text
    document_id := c.document_id
    sequence_index := c.sequence_index }

/-- Modelled from the spec: the vector-store collection — its vector
dimension (`none` while the collection is absent) and its records. -/
structure Store where
  dim : Option Nat
  records : List Record
deriving DecidableEq, Repr

/-- The store is compatible with embedding dimension `d`: the collection
is absent or already has dimension `d`. -/
def Store.compat (s : Store) (d : Nat) : Prop :=
  s.dim = none ∨ s.dim = some d

/-- Modelled from the spec: `IndexWriter.ensure_collection` of §4.4 —
create-if-absent, `SchemaMismatchError` if the collection exists with a
different vector dimension. -/
def ensureCollection (s : Store) (d : Nat) : Except IngestError Store :=
  match s.dim with
  | none => .ok { s with dim := some d }
  | some d' => if d' = d then .ok s else .error .SchemaMismatchError

/-- Modelled from the spec: upsert one record by `id` (§4.4) — replace the
existing record with that id, or append the record if the id is absent. -/
def upsertRecord : List Record → Record → List Record
  | [], r => [r]
  | x :: xs, r => if x.id = r.id then r :: xs else x :: upsertRecord xs r

/-- Modelled from the spec: `IndexWriter.upsert_batch` of §4.4. -/
def upsertBatch (recs : List Record) (rs : List Record) : List Record :=
  rs.foldl upsertRecord recs

/-- Modelled from the spec: the per-run `IngestionReport` of §3. -/
structure Report where
  documents_seen : Nat
  documents_failed : Nat
  chunks_written : Nat
  errors : List (List Char × IngestError)
deriving DecidableEq, Repr

/-- Observable actions of one pipeline run, in program order: a document
loaded from the source directory, a document segmented, a record embedded
and written to the index, the storage context persisted. -/
inductive Event where
  | load : List Char → Event
  | seg : List Char → Event
  | write : List Char → Event
  | persist : Event
deriving DecidableEq, Repr

/-- Phase number of an event: load 0, segment 1, index write 2, persist 3. -/
def rank : Event → Nat
  | .load _ => 0
  | .seg _ => 1
  | .write _ => 2
  | .persist => 3

/-- The documents whose format has an extractor. -/
def okDocs (docs : List Document) : List Document :=
  docs.filter (fun d => d.supported)

/-- The documents skipped as `UnsupportedFormat` (§6). -/
def failedDocs (docs : List Document) : List Document :=
  docs.filter (fun d => !d.supported)

/-- Load events of line 6 of the source (`reader.load_data()`). -/
def loadEvents (docs : List Document) : List Event :=
  docs.map (fun d => Event.load d.document_id)

/-- Segmentation events of line 8 (`parser.get_nodes_from_documents`). -/
def segEvents (docs : List Document) : List Event :=
  (okDocs docs).map (fun d => Event.seg d.document_id)

/-- The records produced for the whole corpus: every supported document is
segmented, every chunk becomes one record. -/
def pipelineRecords (embed : List Char → List Int) (cfg : Config)
    (docs : List Document) : List Record :=
  ((okDocs docs).map (fun d => chunksOf cfg d)).flatten.map (toRecord embed)

/-- Index-write events of line 11 (`VectorStoreIndex.from_nodes`). -/
def writeEvents (embed : List Char → List Int) (cfg : Config)
    (docs : List Document) : List Event :=
  (pipelineRecords embed cfg docs).map (fun r => Event.write r.id)

/-- Modelled from the spec: the `IngestionReport` accumulated for a run
(§3): unsupported documents are the failures, with their errors recorded. -/
def mkReport (docs : List Document) (nrec : Nat) : Report :=
  { documents_seen := docs.length
    documents_failed := (failedDocs docs).length
    chunks_written := nrec
    errors := (failedDocs docs).map (fun d => (d.document_id, IngestError.UnsupportedFormat)) }

/-- The whole run of `src/worker/ingest.py`, with its event trace.  The
phase structure is the source's straight-line order: load all documents
(line 6), construct the splitter — where an invalid configuration raises
`ConfigError` (line 7, modelled from the spec §7) — segment all documents
(line 8), ensure the collection and embed/upsert all records (lines 10–11,
modelled from the spec §4.4), and persist the storage context once at the
end (line 12).  Run-scoped errors abort the run and suppress the report. -/
def runTraced (embed : List Char → List Int) (edim : Nat) (cfg : Config)
    (docs : List Document) (s : Store) :
    Except IngestError (Store × Report) × List Event :=
  if cfg.chunk_size ≤ cfg.chunk_overlap ∨ cfg.chunk_size = 0 then
    (.error .ConfigError, loadEvents docs)
  else
    match ensureCollection s edim with
    | .error e => (.error e, loadEvents docs ++ segEvents docs)
    | .ok s₁ =>
        (.ok ({ s₁ with records := upsertBatch s₁.records (pipelineRecords embed cfg docs) },
              mkReport docs (pipelineRecords embed cfg docs).length),
         loadEvents docs ++ segEvents docs ++ writeEvents embed cfg docs ++ [Event.persist])

/-- The run's result, without the trace. -/
def runPipeline (embed : List Char → List Int) (edim : Nat) (cfg : Config)
    (docs : List Document) (s : Store) : Except IngestError (Store × Report) :=
  (runTraced embed edim cfg docs s).1

/-- The 1000-character document of the spec's concrete scenario (§8). -/
def doc1000 : Document :=
  { document_id := ['d'], raw_text := List.replicate 1000 'a', supported := true }

/-- A small valid configuration used for concrete checks. -/
def wcfg : Config := { chunk_size := 4, chunk_overlap := 1 }

/-- A small supported document used for concrete checks. -/
def wdoc : Document :=
  { document_id := ['x'], raw_text := ['a', 'b', 'c', 'd', 'e'], supported := true }

/-- A document with empty extracted text. -/
def emptyDoc : Document :=
  { document_id := ['e'], raw_text := [], supported := true }

/-- A fresh store: no collection yet, no records. -/
def emptyStore : Store := { dim := none, records := [] }

/-- A concrete stand-in for the opaque embedder: any deterministic
function of the chunk text will do for the concrete checks. -/
def embed0 (t : List Char) : List Int := [(t.length : Int)]

/-- An invalid configuration: overlap not smaller than size. -/
def badConfig : Config := { chunk_size := 4, chunk_overlap := 9 }

/-- The store produced by ingesting `wdoc` into the empty store with the
`embed0` embedder. -/
def wstore1 : Store :=
  { dim := some 3
    records := [{ id := ['L', 'D', 'x', 'D', 'a', 'b', 'c', 'd'],
                  vector := [4],
                  text := ['a', 'b', 'c', 'd'],
                  document_id := ['x'],
                  sequence_index := 0 },
                { id := ['L', 'D', 'x', 'L', 'D', 'I', 'd', 'e'],
                  vector := [2],
                  text := ['d', 'e'],
                  document_id := ['x'],
                  sequence_index := 1 }] }

/-- The report produced by ingesting `wdoc` alone. -/
def wrep : Report :=
  { documents_seen := 1, documents_failed := 0, chunks_written := 2, errors := [] }

/-- The 5-document batch of the partial-failure scenario (§8): document 3
has an unsupported format, the other four are fine. -/
def fiveDocs : List Document :=
  [{ document_id := ['1'], raw_text := ['a', 'b', 'c', 'd', 'e'], supported := true },
   { document_id := ['2'], raw_text := ['f', 'g', 'h', 'i', 'j'], supported := true },
   { document_id := ['3'], raw_text := ['k', 'l', 'm', 'n', 'o'], supported := false },
   { document_id := ['4'], raw_text := ['p', 'q', 'r', 's', 't'], supported := true },
   { document_id := ['5'], raw_text := ['u', 'v', 'w', 'x', 'y'], supported := true }]

/-- The first record with id `i` in the store is `r` (and such a record
exists).  Auxiliary predicate for the upsert-idempotence argument. -/
def FirstIs : List Record → List Char → Record → Prop
  | [], _, _ => False
  | x :: xs, i, r => if x.id = i then x = r else FirstIs xs i r

/-- Modelled from the spec: remove the overlap regions from a sequence of
chunk texts — the first chunk is kept whole, every later chunk has its
first `k` characters (the overlap with its predecessor) removed — and
concatenate the remainders in order. -/
def reconstruct (k : Nat) : List (List Char) → List Char
  | [] => []
  | t :: ts => t ++ (ts.map (fun u => u.drop k)).flatten

/-! ### Structure of the window walk -/

lemma chunkSpansAux_succ (n stride len fuel start : Nat) :
    chunkSpansAux n stride len (fuel + 1) start =
      if len ≤ start + n then [(start, len)]
      else (start, start + n) :: chunkSpansAux n stride len fuel (start + stride) := rfl

lemma chunkSpansAux_head? (n stride len : Nat) :
    ∀ fuel start, start < len → len - start ≤ fuel →
      ∃ e, (chunkSpansAux n stride len fuel start).head? = some (start, e) := by
  intro fuel
  cases fuel with
  | zero => intro start h1 h2; exact absurd h2 (by omega)
  | succ fuel =>
    intro start h1 h2
    by_cases hle : len ≤ start + n
    · exact ⟨len, by simp [chunkSpansAux, hle]⟩
    · exact ⟨start + n, by simp [chunkSpansAux, hle]⟩

lemma chunkSpansAux_chain' (n k len : Nat) (hk : k < n) :
    ∀ fuel start, start < len → len - start ≤ fuel →
      List.Chain'
        (fun sp sp' : Nat × Nat =>
          sp'.1 = sp.1 + (n - k) ∧ sp.2 = sp.1 + n ∧ sp.2 - sp'.1 = k)
        (chunkSpansAux n (n - k) len fuel start) := by
  intro fuel
  induction fuel with
  | zero => intro start h1 h2; exact absurd h2 (by omega)
  | succ fuel ih =>
    intro start h1 h2
    by_cases hle : len ≤ start + n
    · simp [chunkSpansAux, hle]
    · rw [chunkSpansAux, if_neg hle]
      have h1' : start + (n - k) < len := by omega
      have h2' : len - (start + (n - k)) ≤ fuel := by omega
      rw [List.chain'_cons']
      refine ⟨?_, ih _ h1' h2'⟩
      intro b hb
      obtain ⟨e, he⟩ := chunkSpansAux_head? n (n - k) len fuel _ h1' h2'
      rw [he] at hb
      simp only [Option.mem_some_iff] at hb
      subst hb
      exact ⟨rfl, rfl, by omega⟩

lemma chunkSpansAux_mem (n stride len : Nat) (hsn : stride ≤ n) :
    ∀ fuel start, start < len →
      ∀ sp ∈ chunkSpansAux n stride len fuel start,
        start ≤ sp.1 ∧ sp.1 < len ∧ sp.2 = min (sp.1 + n) len := by
  intro fuel
  induction fuel with
  | zero => intro start _ sp hsp; simp [chunkSpansAux] at hsp
  | succ fuel ih =>
    intro start h1 sp hsp
    by_cases hle : len ≤ start + n
    · rw [chunkSpansAux, if_pos hle] at hsp
      simp only [List.mem_singleton] at hsp
      subst hsp
      exact ⟨le_refl _, h1, by omega⟩
    · rw [chunkSpansAux, if_neg hle] at hsp
      rcases List.mem_cons.mp hsp with h | h
      · subst h
        exact ⟨le_refl _, h1, by omega⟩
      · have h1' : start + stride < len := by omega
        obtain ⟨ha, hb, hc⟩ := ih (start + stride) h1' sp h
        exact ⟨by omega, hb, hc⟩

lemma chunkSpans_of_le (n k len : Nat) (h0 : 0 < len) (hle : len ≤ n) :
    chunkSpans n k len = [(0, len)] := by
  rw [chunkSpans, if_neg (by omega)]
  obtain ⟨m, rfl⟩ : ∃ m, len = m + 1 := ⟨len - 1, by omega⟩
  rw [chunkSpansAux, if_pos (by omega)]

lemma chunkSpans_head_start (n k len : Nat) :
    ∀ sp ∈ (chunkSpans n k len).head?, sp.1 = 0 := by
  intro sp hsp
  rw [chunkSpans] at hsp
  by_cases hl : len = 0
  · simp [hl] at hsp
  · rw [if_neg hl] at hsp
    obtain ⟨e, he⟩ := chunkSpansAux_head? n (n - k) len len 0 (by omega) (by omega)
    rw [he] at hsp
    simp only [Option.mem_some_iff] at hsp
    subst hsp
    rfl

/-! ### Indexing helpers -/

lemma indexFrom_head? {α : Type} (i : Nat) (l : List α) :
    (indexFrom i l).head? = l.head?.map (fun a => (i, a)) := by
  cases l <;> rfl

lemma indexFrom_mem_fst {α : Type} :
    ∀ (i : Nat) (l : List α) (p : Nat × α), p ∈ indexFrom i l → i ≤ p.1 := by
  intro i l
  induction l generalizing i with
  | nil => intro p hp; simp [indexFrom] at hp
  | cons a as ih =>
    intro p hp
    rcases List.mem_cons.mp hp with h | h
    · subst h; exact le_refl _
    · exact le_trans (by omega) (ih (i + 1) p h)

lemma indexFrom_mem_snd {α : Type} :
    ∀ (i : Nat) (l : List α) (p : Nat × α), p ∈ indexFrom i l → p.2 ∈ l := by
  intro i l
  induction l generalizing i with
  | nil => intro p hp; simp [indexFrom] at hp
  | cons a as ih =>
    intro p hp
    rcases List.mem_cons.mp hp with h | h
    · subst h; exact List.mem_cons_self _ _
    · exact List.mem_cons_of_mem _ (ih (i + 1) p h)

lemma indexFrom_map_fst_nodup {α : Type} :
    ∀ (i : Nat) (l : List α), ((indexFrom i l).map Prod.fst).Nodup := by
  intro i l
  induction l generalizing i with
  | nil => simp [indexFrom]
  | cons a as ih =>
    rw [indexFrom, List.map_cons, List.nodup_cons]
    refine ⟨?_, ih (i + 1)⟩
    intro hmem
    obtain ⟨p, hp, hpi⟩ := List.mem_map.mp hmem
    have := indexFrom_mem_fst (i + 1) as p hp
    omega

lemma indexFrom_map_snd {α β : Type} (f : α → β) :
    ∀ (i : Nat) (l : List α), (indexFrom i l).map (fun p => f p.2) = l.map f := by
  intro i l
  induction l generalizing i with
  | nil => rfl
  | cons a as ih => rw [indexFrom, List.map_cons, List.map_cons, ih (i + 1)]

lemma chain'_indexFrom {α : Type} {R : α → α → Prop} {S : Nat × α → Nat × α → Prop}
    (h : ∀ i a j b, R a b → S (i, a) (j, b)) :
    ∀ (i : Nat) (l : List α), List.Chain' R l → List.Chain' S (indexFrom i l) := by
  intro i l
  induction l generalizing i with
  | nil => intro _; simp [indexFrom]
  | cons a as ih =>
    cases as with
    | nil => intro _; simp [indexFrom]
    | cons b bs =>
      intro hc
      rw [List.chain'_cons] at hc
      show List.Chain' S ((i, a) :: (i + 1, b) :: indexFrom (i + 2) bs)
      rw [List.chain'_cons]
      exact ⟨h _ _ _ _ hc.1, ih (i + 1) hc.2⟩

/-! ### Slice algebra and reconstruction -/

lemma sliceL_to_end (t : List Char) (s : Nat) : sliceL t s t.length = t.drop s := by
  rw [sliceL, ← List.length_drop]
  exact List.take_length _

lemma drop_sliceL (t : List Char) (s e k : Nat) :
    (sliceL t s e).drop k = sliceL t (s + k) e := by
  rw [sliceL, sliceL, List.drop_take, List.drop_drop]
  have h1 : e - s - k = e - (s + k) := by omega
  have h2 : s + k = k + s := by omega
  rw [h1, h2]

lemma chunkSpansAux_reconstruct_drop (t : List Char) (n k : Nat) (hk : k < n) :
    ∀ fuel start, start < t.length → t.length - start ≤ fuel →
      ((chunkSpansAux n (n - k) t.length fuel start).map
          (fun sp => sliceL t (sp.1 + k) sp.2)).flatten = t.drop (start + k) := by
  intro fuel
  induction fuel with
  | zero => intro start h1 h2; exact absurd h2 (by omega)
  | succ fuel ih =>
    intro start h1 h2
    by_cases hle : t.length ≤ start + n
    · rw [chunkSpansAux_succ, if_pos hle]
      simp only [List.map_cons, List.map_nil, List.flatten_cons, List.flatten_nil,
        List.append_nil]
      exact sliceL_to_end t (start + k)
    · rw [chunkSpansAux_succ, if_neg hle]
      rw [List.map_cons, List.flatten_cons]
      rw [ih (start + (n - k)) (by omega) (by omega)]
      have h3 : start + (n - k) + k = start + n := by omega
      rw [h3, sliceL]
      have hdd : t.drop (start + n) = (t.drop (start + k)).drop (start + n - (start + k)) := by
        rw [List.drop_drop]; congr 1; omega
      rw [hdd, List.take_append_drop]

lemma chunkSpans_reconstruct (t : List Char) (n k : Nat) (hn : 0 < n) (hk : k < n) :
    reconstruct k ((chunkSpans n k t.length).map (fun sp => sliceL t sp.1 sp.2)) = t := by
  by_cases hl : t.length = 0
  · rw [chunkSpans, if_pos hl]
    simp only [List.map_nil, reconstruct]
    exact (List.length_eq_zero.mp hl).symm
  · by_cases hle : t.length ≤ n
    · rw [chunkSpans_of_le n k t.length (by omega) hle]
      simp only [List.map_cons, List.map_nil, reconstruct, List.flatten_nil,
        List.append_nil]
      rw [sliceL_to_end, List.drop_zero]
    · rw [chunkSpans, if_neg hl]
      obtain ⟨m, hm⟩ : ∃ m, t.length = m + 1 := ⟨t.length - 1, by omega⟩
      rw [hm, chunkSpansAux_succ, if_neg (by omega)]
      rw [List.map_cons, reconstruct, List.map_map]
      have hfun : ((fun u : List Char => u.drop k) ∘ fun sp : Nat × Nat => sliceL t sp.1 sp.2)
          = fun sp : Nat × Nat => sliceL t (sp.1 + k) sp.2 := by
        funext sp
        exact drop_sliceL t sp.1 sp.2 k
      rw [hfun]
      have hrec := chunkSpansAux_reconstruct_drop t n k hk m (0 + (n - k))
        (by omega) (by omega)
      rw [hm] at hrec
      rw [hrec]
      have h4 : 0 + (n - k) + k = n := by omega
      rw [h4, sliceL]
      have h5 : 0 + n - 0 = n := by omega
      rw [h5, List.drop_zero]
      exact List.take_append_drop n t

lemma chunkSpans_mem (n k len : Nat) (hk : k < n) :
    ∀ sp ∈ chunkSpans n k len, sp.1 < len ∧ sp.2 = min (sp.1 + n) len := by
  intro sp hsp
  rw [chunkSpans] at hsp
  by_cases hl : len = 0
  · simp [hl] at hsp
  · rw [if_neg hl] at hsp
    have h := chunkSpansAux_mem n (n - k) len (by omega) len 0 (by omega) sp hsp
    exact ⟨h.2.1, h.2.2⟩

/-! ### Claim C1 -/

/-- C1: under any valid config with `chunk_size = n`, `chunk_overlap = k`,
the segmenter windows start at offset 0 and each subsequent window's start
advances by exactly `n - k`, so every non-final window has length `n` and
every pair of consecutive chunks overlaps by exactly `k` characters
(`chunk[i].char_end - chunk[i+1].char_start = k`) — in fact with no
exception at the final, truncated chunk; and the 1000-character document
under the source's `chunk_size=512, chunk_overlap=64` yields exactly the
three chunks `[0,512)`, `[448,960)`, `[896,1000)`. -/
theorem chunk_stride_and_overlap (cfg : Config) (d : Document) (hv : cfg.valid) :
    (∀ c ∈ (chunksOf cfg d).head?, c.char_start = 0)
    ∧ List.Chain'
        (fun c c' : Chunk =>
          c'.char_start = c.char_start + (cfg.chunk_size - cfg.chunk_overlap)
            ∧ c.char_end = c.char_start + cfg.chunk_size
            ∧ c.char_end - c'.char_start = cfg.chunk_overlap)
        (chunksOf cfg d)
    ∧ (chunksOf splitterConfig doc1000).map (fun c => (c.char_start, c.char_end))
        = [(0, 512), (448, 960), (896, 1000)] := by
  refine ⟨?_, ?_, ?_⟩
  · intro c hc
    rw [chunksOf, List.head?_map, indexFrom_head?] at hc
    cases hs : (chunkSpans cfg.chunk_size cfg.chunk_overlap d.raw_text.length).head? with
    | none => rw [hs] at hc; simp at hc
    | some sp =>
      rw [hs] at hc
      simp only [Option.map_some', Option.mem_some_iff] at hc
      subst hc
      show sp.1 = 0
      exact chunkSpans_head_start _ _ _ sp (by rw [hs]; rfl)
  · by_cases hl : d.raw_text.length = 0
    · simp [chunksOf, chunkSpans, hl, indexFrom]
    · have hchain := chunkSpansAux_chain' cfg.chunk_size cfg.chunk_overlap
        d.raw_text.length hv.2 d.raw_text.length 0 (by omega) (by omega)
      rw [chunksOf, chunkSpans, if_neg hl]
      have h2 : List.Chain'
          (fun p q : Nat × (Nat × Nat) =>
            q.2.1 = p.2.1 + (cfg.chunk_size - cfg.chunk_overlap)
              ∧ p.2.2 = p.2.1 + cfg.chunk_size ∧ p.2.2 - q.2.1 = cfg.chunk_overlap)
          (indexFrom 0 (chunkSpansAux cfg.chunk_size (cfg.chunk_size - cfg.chunk_overlap)
            d.raw_text.length d.raw_text.length 0)) :=
        chain'_indexFrom (fun _ _ _ _ hab => hab) 0 _ hchain
      exact List.chain'_map_of_chain'
        (fun p : Nat × (Nat × Nat) =>
          ({ document_id := d.document_id, sequence_index := p.1,
             text := sliceL d.raw_text p.2.1 p.2.2,
             char_start := p.2.1, char_end := p.2.2 } : Chunk))
        (fun _ _ hpq => hpq) h2
  · decide

/-- Witness for C1 at the source configuration and the spec's
1000-character document. -/
theorem chunk_stride_and_overlap_witness :
    splitterConfig.valid
    ∧ ((∀ c ∈ (chunksOf splitterConfig doc1000).head?, c.char_start = 0)
       ∧ List.Chain'
           (fun c c' : Chunk =>
             c'.char_start = c.char_start + (splitterConfig.chunk_size - splitterConfig.chunk_overlap)
               ∧ c.char_end = c.char_start + splitterConfig.chunk_size
               ∧ c.char_end - c'.char_start = splitterConfig.chunk_overlap)
           (chunksOf splitterConfig doc1000)
       ∧ (chunksOf splitterConfig doc1000).map (fun c => (c.char_start, c.char_end))
           = [(0, 512), (448, 960), (896, 1000)]) :=
  ⟨by decide, chunk_stride_and_overlap splitterConfig doc1000 (by decide)⟩

/-! ### Claim C2 -/

/-- C2: for every document and valid config, removing the overlap regions
from the chunk sequence (keep the first chunk whole, strip the first
`chunk_overlap` characters from every later chunk) and concatenating the
remainders in order reconstructs the document's text exactly — no
characters lost or duplicated outside the overlap regions. -/
theorem segment_reconstructs (cfg : Config) (d : Document) (hv : cfg.valid) :
    reconstruct cfg.chunk_overlap ((chunksOf cfg d).map (fun c => c.text)) = d.raw_text := by
  have hmap : (chunksOf cfg d).map (fun c => c.text)
      = (chunkSpans cfg.chunk_size cfg.chunk_overlap d.raw_text.length).map
          (fun sp => sliceL d.raw_text sp.1 sp.2) := by
    rw [chunksOf, List.map_map]
    exact indexFrom_map_snd (fun sp : Nat × Nat => sliceL d.raw_text sp.1 sp.2) 0 _
  rw [hmap]
  exact chunkSpans_reconstruct d.raw_text cfg.chunk_size cfg.chunk_overlap hv.1 hv.2

/-- Witness for C2 at the source configuration and the spec's
1000-character document. -/
theorem segment_reconstructs_witness :
    splitterConfig.valid
    ∧ reconstruct splitterConfig.chunk_overlap
        ((chunksOf splitterConfig doc1000).map (fun c => c.text)) = doc1000.raw_text :=
  ⟨by decide, segment_reconstructs splitterConfig doc1000 (by decide)⟩

/-! ### Claim C5 -/

/-- C5 (amended): for every document with nonzero text length at most
`chunk_size`, the segmenter emits exactly one chunk covering the whole
text; a document with empty text yields no chunk at all; and every chunk
is nonempty and truncated to the text — `char_start < char_end`,
`char_end ≤ length`, and the chunk text is exactly the
`char_end - char_start` characters of its span (no padding). -/
theorem segment_degenerate_truncation (cfg : Config) (d : Document) (hv : cfg.valid) :
    (0 < d.raw_text.length → d.raw_text.length ≤ cfg.chunk_size →
        chunksOf cfg d = [{ document_id := d.document_id, sequence_index := 0,
                            text := d.raw_text, char_start := 0,
                            char_end := d.raw_text.length }])
    ∧ (d.raw_text.length = 0 → chunksOf cfg d = [])
    ∧ (∀ c ∈ chunksOf cfg d,
        c.char_start < c.char_end ∧ c.char_end ≤ d.raw_text.length
          ∧ c.text.length = c.char_end - c.char_start) := by
  refine ⟨?_, ?_, ?_⟩
  · intro h0 hle
    rw [chunksOf, chunkSpans_of_le _ _ _ h0 hle]
    simp only [indexFrom, List.map_cons, List.map_nil]
    rw [sliceL_to_end, List.drop_zero]
  · intro h0
    rw [chunksOf, h0]
    rfl
  · intro c hc
    rw [chunksOf] at hc
    obtain ⟨p, hp, hpc⟩ := List.mem_map.mp hc
    have hsp := indexFrom_mem_snd 0 _ p hp
    obtain ⟨h1, h2⟩ := chunkSpans_mem cfg.chunk_size cfg.chunk_overlap
      d.raw_text.length hv.2 p.2 hsp
    subst hpc
    have hn := hv.1
    have hchoice : p.2.2 = p.2.1 + cfg.chunk_size ∨ p.2.2 = d.raw_text.length := by
      rw [h2]; exact min_choice _ _
    have hend : p.2.2 ≤ d.raw_text.length := h2 ▸ min_le_right _ _
    refine ⟨?_, hend, ?_⟩
    · show p.2.1 < p.2.2
      rcases hchoice with h | h <;> omega
    · show (sliceL d.raw_text p.2.1 p.2.2).length = p.2.2 - p.2.1
      rw [sliceL, List.length_take, List.length_drop]
      exact Nat.min_eq_left (by omega)

/-- Witness for C5 (amended) at a small valid configuration. -/
theorem segment_degenerate_truncation_witness :
    wcfg.valid
    ∧ ((0 < wdoc.raw_text.length → wdoc.raw_text.length ≤ wcfg.chunk_size →
          chunksOf wcfg wdoc = [{ document_id := wdoc.document_id, sequence_index := 0,
                                  text := wdoc.raw_text, char_start := 0,
                                  char_end := wdoc.raw_text.length }])
       ∧ (wdoc.raw_text.length = 0 → chunksOf wcfg wdoc = [])
       ∧ (∀ c ∈ chunksOf wcfg wdoc,
           c.char_start < c.char_end ∧ c.char_end ≤ wdoc.raw_text.length
             ∧ c.text.length = c.char_end - c.char_start)) :=
  ⟨by decide, segment_degenerate_truncation wcfg wdoc (by decide)⟩

/-- Counterexample to C5 as stated: the empty document has text length at
most `chunk_size`, yet under the (valid) source configuration the
segmenter emits zero chunks, not exactly one chunk covering the whole
text — the claim's "exactly one chunk" clause and its own "no chunk ever
has zero length" clause cannot both hold on empty text, and the model
follows the no-empty-chunk rule. -/
theorem segment_empty_document_counterexample :
    emptyDoc.raw_text.length ≤ splitterConfig.chunk_size
    ∧ splitterConfig.valid
    ∧ (chunksOf splitterConfig emptyDoc).length ≠ 1 := by decide

/-! ### Claim C3 -/

lemma replicate_sep_inj {x y : Char} (hxy : x ≠ y) :
    ∀ (a b : Nat) (u v : List Char),
      List.replicate a x ++ y :: u = List.replicate b x ++ y :: v → a = b ∧ u = v := by
  intro a
  induction a with
  | zero =>
    intro b u v h
    cases b with
    | zero => simpa using h
    | succ b =>
      rw [List.replicate_succ] at h
      simp only [List.replicate, List.nil_append, List.cons_append, List.cons.injEq] at h
      exact absurd h.1.symm hxy
  | succ a ih =>
    intro b u v h
    cases b with
    | zero =>
      rw [List.replicate_succ] at h
      simp only [List.replicate, List.nil_append, List.cons_append, List.cons.injEq] at h
      exact absurd h.1 hxy
    | succ b =>
      rw [List.replicate_succ, List.replicate_succ] at h
      simp only [List.cons_append, List.cons.injEq] at h
      obtain ⟨ha, hv⟩ := ih b u v h.2
      exact ⟨by omega, hv⟩

lemma encodeField_append_inj (s r t r' : List Char)
    (h : encodeField s ++ r = encodeField t ++ r') : s = t ∧ r = r' := by
  rw [encodeField, encodeField, List.append_assoc, List.append_assoc] at h
  simp only [List.cons_append] at h
  obtain ⟨hlen, hsr⟩ := replicate_sep_inj (by decide : ('L' : Char) ≠ 'D')
    s.length t.length (s ++ r) (t ++ r') h
  exact List.append_inj hsr hlen

lemma identify_inj {d d' : List Char} {i i' : Nat} {t t' : List Char}
    (h : identify d i t = identify d' i' t') : d = d' ∧ i = i' ∧ t = t' := by
  rw [identify, identify, List.append_assoc, List.append_assoc] at h
  obtain ⟨hd, h2⟩ := encodeField_append_inj _ _ _ _ h
  obtain ⟨hi, ht⟩ := encodeField_append_inj _ _ _ _ h2
  refine ⟨hd, ?_, ht⟩
  have hlen := congrArg List.length hi
  simpa [List.length_replicate] using hlen

/-- C3: chunk identity is a deterministic, collision-free function of the
triple `(document_id, sequence_index, text)` — two chunks get the same
`chunk_id` exactly when all three components coincide, so identical
triples always yield the identical id and any change to the text or the
position (or the owning document) changes the id. -/
theorem identify_deterministic_collision_free
    (d d' : List Char) (i i' : Nat) (t t' : List Char) :
    identify d i t = identify d' i' t' ↔ d = d' ∧ i = i' ∧ t = t' := by
  constructor
  · exact identify_inj
  · rintro ⟨rfl, rfl, rfl⟩
    rfl

/-! ### Upsert semantics -/

lemma upsertRecord_nil (r : Record) : upsertRecord [] r = [r] := rfl

lemma upsertRecord_cons (x : Record) (xs : List Record) (r : Record) :
    upsertRecord (x :: xs) r = if x.id = r.id then r :: xs else x :: upsertRecord xs r := rfl

lemma firstIs_nil (i : List Char) (r : Record) : ¬ FirstIs [] i r := fun h => h

lemma firstIs_cons (x : Record) (xs : List Record) (i : List Char) (r : Record) :
    FirstIs (x :: xs) i r = if x.id = i then x = r else FirstIs xs i r := rfl

lemma upsertBatch_cons (s : List Record) (r : Record) (rs : List Record) :
    upsertBatch s (r :: rs) = upsertBatch (upsertRecord s r) rs := rfl

lemma upsertRecord_firstIs_self (s : List Record) (r : Record) :
    FirstIs (upsertRecord s r) r.id r := by
  induction s with
  | nil =>
    rw [upsertRecord_nil, firstIs_cons, if_pos rfl]
  | cons x xs ih =>
    rw [upsertRecord_cons]
    by_cases hx : x.id = r.id
    · rw [if_pos hx, firstIs_cons, if_pos rfl]
    · rw [if_neg hx, firstIs_cons, if_neg hx]
      exact ih

lemma firstIs_upsertRecord_other (s : List Record) (r' : Record) (i : List Char)
    (r : Record) (hne : r'.id ≠ i) (h : FirstIs s i r) :
    FirstIs (upsertRecord s r') i r := by
  induction s with
  | nil => exact absurd h (firstIs_nil i r)
  | cons x xs ih =>
    rw [upsertRecord_cons]
    by_cases hx : x.id = r'.id
    · rw [if_pos hx]
      rw [firstIs_cons, if_neg (by rw [hx]; exact hne)] at h
      rw [firstIs_cons, if_neg hne]
      exact h
    · rw [if_neg hx]
      rw [firstIs_cons] at h
      by_cases hxi : x.id = i
      · rw [if_pos hxi] at h
        rw [firstIs_cons, if_pos hxi]
        exact h
      · rw [if_neg hxi] at h
        rw [firstIs_cons, if_neg hxi]
        exact ih h

lemma firstIs_upsertBatch (rs : List Record) (i : List Char) (r : Record)
    (hne : ∀ r' ∈ rs, r'.id ≠ i) :
    ∀ s, FirstIs s i r → FirstIs (upsertBatch s rs) i r := by
  induction rs with
  | nil => intro s h; exact h
  | cons r' rs ih =>
    intro s h
    rw [upsertBatch_cons]
    exact ih (fun x hx => hne x (List.mem_cons_of_mem _ hx)) _
      (firstIs_upsertRecord_other s r' i r (hne r' (List.mem_cons_self _ _)) h)

lemma upsertRecord_of_firstIs (s : List Record) (r : Record)
    (h : FirstIs s r.id r) : upsertRecord s r = s := by
  induction s with
  | nil => exact absurd h (firstIs_nil _ r)
  | cons x xs ih =>
    rw [upsertRecord_cons]
    rw [firstIs_cons] at h
    by_cases hx : x.id = r.id
    · rw [if_pos hx] at h
      rw [if_pos hx, h]
    · rw [if_neg hx] at h
      rw [if_neg hx, ih h]

lemma upsertBatch_idem :
    ∀ rs : List Record, (rs.map (fun r => r.id)).Nodup →
      ∀ s, upsertBatch (upsertBatch s rs) rs = upsertBatch s rs := by
  intro rs
  induction rs with
  | nil => intro _ s; rfl
  | cons r rs ih =>
    intro hnd s
    rw [List.map_cons, List.nodup_cons] at hnd
    obtain ⟨hnotmem, hnd'⟩ := hnd
    rw [upsertBatch_cons, upsertBatch_cons]
    have hfix : upsertRecord (upsertBatch (upsertRecord s r) rs) r
        = upsertBatch (upsertRecord s r) rs := by
      apply upsertRecord_of_firstIs
      apply firstIs_upsertBatch rs r.id r ?_ _ (upsertRecord_firstIs_self s r)
      intro r' hr' heq
      exact hnotmem (heq ▸ List.mem_map_of_mem (fun x => x.id) hr')
    rw [hfix]
    exact ih hnd' (upsertRecord s r)

/-! ### Record ids of one document are pairwise distinct -/

lemma nodup_map_of_nodup_map {α β γ : Type} (f : α → β) (g : α → γ) :
    ∀ l : List α, (∀ x ∈ l, ∀ y ∈ l, f x = f y → g x = g y) →
      (l.map g).Nodup → (l.map f).Nodup := by
  intro l
  induction l with
  | nil => intro _ _; simp
  | cons a as ih =>
    intro hfg hg
    rw [List.map_cons, List.nodup_cons] at hg ⊢
    obtain ⟨hga, hg'⟩ := hg
    refine ⟨?_, ih (fun x hx y hy =>
      hfg x (List.mem_cons_of_mem _ hx) y (List.mem_cons_of_mem _ hy)) hg'⟩
    intro hmem
    obtain ⟨x, hx, hfx⟩ := List.mem_map.mp hmem
    have hgx : g x = g a :=
      hfg x (List.mem_cons_of_mem _ hx) a (List.mem_cons_self _ _) hfx
    exact hga (hgx ▸ List.mem_map_of_mem g hx)

lemma chunksOf_recordIds_nodup (embed : List Char → List Int) (cfg : Config)
    (d : Document) :
    (((chunksOf cfg d).map (toRecord embed)).map (fun r => r.id)).Nodup := by
  rw [List.map_map]
  apply nodup_map_of_nodup_map _ (fun c : Chunk => c.sequence_index)
  · intro x _ y _ hf
    exact (identify_inj hf).2.1
  · rw [chunksOf, List.map_map]
    exact indexFrom_map_fst_nodup 0 _

lemma pipelineRecords_single (embed : List Char → List Int) (cfg : Config)
    (d : Document) :
    pipelineRecords embed cfg [d]
      = if d.supported then (chunksOf cfg d).map (toRecord embed) else [] := by
  by_cases hs : d.supported
  · simp [pipelineRecords, okDocs, List.filter, hs]
  · simp [pipelineRecords, okDocs, List.filter, hs]

lemma pipelineRecords_single_ids_nodup (embed : List Char → List Int) (cfg : Config)
    (d : Document) :
    ((pipelineRecords embed cfg [d]).map (fun r => r.id)).Nodup := by
  rw [pipelineRecords_single]
  by_cases hs : d.supported
  · rw [if_pos hs]
    exact chunksOf_recordIds_nodup embed cfg d
  · rw [if_neg hs]
    simp

/-! ### Claim C4 -/

lemma ensureCollection_ok (s : Store) (dm : Nat) (s' : Store)
    (h : ensureCollection s dm = .ok s') :
    s'.dim = some dm ∧ s'.records = s.records := by
  unfold ensureCollection at h
  split at h
  next heq =>
    simp only [Except.ok.injEq] at h
    subst h
    exact ⟨rfl, rfl⟩
  next d' heq =>
    by_cases hdd : d' = dm
    · rw [if_pos hdd] at h
      simp only [Except.ok.injEq] at h
      subst h
      exact ⟨by rw [heq, hdd], rfl⟩
    · rw [if_neg hdd] at h
      exact absurd h (by simp)

lemma ensureCollection_of_dim (s : Store) (dm : Nat) (h : s.dim = some dm) :
    ensureCollection s dm = .ok s := by
  unfold ensureCollection
  rw [h]
  simp

lemma runPipeline_eq_ok {embed : List Char → List Int} {edim : Nat} {cfg : Config}
    {docs : List Document} {s : Store} {v : Store × Report}
    (h : runPipeline embed edim cfg docs s = .ok v) :
    ∃ s₁, ensureCollection s edim = .ok s₁
      ∧ ¬(cfg.chunk_size ≤ cfg.chunk_overlap ∨ cfg.chunk_size = 0)
      ∧ v = ({ s₁ with records := upsertBatch s₁.records (pipelineRecords embed cfg docs) },
             mkReport docs (pipelineRecords embed cfg docs).length) := by
  rw [runPipeline, runTraced] at h
  by_cases hc : cfg.chunk_size ≤ cfg.chunk_overlap ∨ cfg.chunk_size = 0
  · rw [if_pos hc] at h
    exact absurd h (by simp)
  · rw [if_neg hc] at h
    cases he : ensureCollection s edim with
    | error e =>
      rw [he] at h
      exact absurd h (by simp)
    | ok s₁ =>
      rw [he] at h
      simp only [Except.ok.injEq] at h
      exact ⟨s₁, rfl, hc, h.symm⟩

/-- C4: ingestion is idempotent — if running the pipeline on a document
produces the store `s₁` (and report `rep`), running the identical
ingestion again on `s₁` returns exactly `.ok (s₁, rep)`: the same chunk
ids are derived, every record upserts onto itself, and the store does not
change or grow. -/
theorem ingestion_idempotent (embed : List Char → List Int) (edim : Nat) (cfg : Config)
    (d : Document) (s s₁ : Store) (rep : Report)
    (h : runPipeline embed edim cfg [d] s = .ok (s₁, rep)) :
    runPipeline embed edim cfg [d] s₁ = .ok (s₁, rep) := by
  obtain ⟨s₀, hens, hc, hv⟩ := runPipeline_eq_ok h
  have hs₁ : s₁ = { s₀ with
      records := upsertBatch s₀.records (pipelineRecords embed cfg [d]) } :=
    congrArg Prod.fst hv
  have hrep : rep = mkReport [d] (pipelineRecords embed cfg [d]).length :=
    congrArg Prod.snd hv
  obtain ⟨hdim, _⟩ := ensureCollection_ok s edim s₀ hens
  have hdim1 : s₁.dim = some edim := by rw [hs₁]; exact hdim
  rw [runPipeline, runTraced, if_neg hc, ensureCollection_of_dim s₁ edim hdim1]
  have hrec2 : upsertBatch s₁.records (pipelineRecords embed cfg [d]) = s₁.records := by
    rw [hs₁]
    exact upsertBatch_idem _ (pipelineRecords_single_ids_nodup embed cfg d) _
  dsimp only
  rw [hrec2, hrep]

/-- Witness for C4: a concrete document ingested twice — the second run
returns the store of the first run unchanged. -/
theorem ingestion_idempotent_witness :
    runPipeline embed0 3 wcfg [wdoc] emptyStore = .ok (wstore1, wrep)
    ∧ runPipeline embed0 3 wcfg [wdoc] wstore1 = .ok (wstore1, wrep) :=
  have h : runPipeline embed0 3 wcfg [wdoc] emptyStore = .ok (wstore1, wrep) := rfl
  ⟨h, ingestion_idempotent embed0 3 wcfg wdoc emptyStore wstore1 wrep h⟩

/-! ### Claim C6 -/

/-- C6: for every configuration with `chunk_overlap ≥ chunk_size` or
`chunk_size ≤ 0`, segmentation fails with `ConfigError`, and the error is
fatal for the run: the whole run aborts with `ConfigError` before any
document is processed — the trace contains no segmentation, index-write
or persist action, only the directory read that precedes the splitter's
construction in the source. -/
theorem config_error_fatal (cfg : Config) (embed : List Char → List Int) (edim : Nat)
    (docs : List Document) (s : Store) (h : ¬ cfg.valid) :
    (∀ d : Document, segment d cfg = .error .ConfigError)
    ∧ (runTraced embed edim cfg docs s).1 = .error .ConfigError
    ∧ ∀ e ∈ (runTraced embed edim cfg docs s).2, ∃ docId, e = Event.load docId := by
  have hc : cfg.chunk_size ≤ cfg.chunk_overlap ∨ cfg.chunk_size = 0 := by
    unfold Config.valid at h
    omega
  refine ⟨?_, ?_, ?_⟩
  · intro d
    rw [segment, if_pos hc]
  · rw [runTraced, if_pos hc]
  · rw [runTraced, if_pos hc]
    intro e he
    obtain ⟨d, _, rfl⟩ := List.mem_map.mp he
    exact ⟨d.document_id, rfl⟩

/-- Witness for C6 at a concrete invalid configuration (overlap 9 ≥ size 4). -/
theorem config_error_fatal_witness :
    (∀ d : Document, segment d badConfig = .error .ConfigError)
    ∧ (runTraced embed0 3 badConfig [wdoc] emptyStore).1 = .error .ConfigError
    ∧ ∀ e ∈ (runTraced embed0 3 badConfig [wdoc] emptyStore).2,
        ∃ docId, e = Event.load docId :=
  config_error_fatal badConfig embed0 3 [wdoc] emptyStore (by decide)

/-! ### Claim C7 -/

/-- C7: partial-failure isolation — under a valid configuration and a
compatible store, the run always completes with an `IngestionReport`;
every document that fails (unsupported format) is counted in
`documents_failed` and its error recorded in the report, while the
pipeline proceeds over all remaining documents.  In the concrete
5-document batch whose third document raises `UnsupportedFormat`, the run
completes with `documents_failed = 1` and every chunk of documents
1, 2, 4, 5 present in the store. -/
theorem partial_failure_isolation (embed : List Char → List Int) (edim : Nat)
    (cfg : Config) (docs : List Document) (s : Store)
    (hv : cfg.valid) (hcompat : s.compat edim) :
    (∃ s' rep, (runTraced embed edim cfg docs s).1 = .ok (s', rep)
       ∧ rep.documents_seen = docs.length
       ∧ rep.documents_failed = (docs.filter (fun d => !d.supported)).length
       ∧ ∀ d ∈ docs, d.supported = false →
           (d.document_id, IngestError.UnsupportedFormat) ∈ rep.errors)
    ∧ (∃ s' rep, runPipeline embed0 3 wcfg fiveDocs emptyStore = .ok (s', rep)
       ∧ rep.documents_failed = 1
       ∧ ∀ d ∈ fiveDocs, d.supported = true →
           ∀ c ∈ chunksOf wcfg d, toRecord embed0 c ∈ s'.records) := by
  constructor
  · have hc : ¬(cfg.chunk_size ≤ cfg.chunk_overlap ∨ cfg.chunk_size = 0) := by
      unfold Config.valid at hv
      omega
    have hens : ∃ s₁, ensureCollection s edim = .ok s₁ := by
      rcases hcompat with h | h
      · refine ⟨{ s with dim := some edim }, ?_⟩
        unfold ensureCollection
        rw [h]
      · exact ⟨s, ensureCollection_of_dim s edim h⟩
    obtain ⟨s₁, he⟩ := hens
    refine ⟨{ s₁ with records := upsertBatch s₁.records (pipelineRecords embed cfg docs) },
            mkReport docs (pipelineRecords embed cfg docs).length, ?_, rfl, rfl, ?_⟩
    · rw [runTraced, if_neg hc, he]
    · intro d hd hsup
      have hmem : d ∈ failedDocs docs := by
        rw [failedDocs]
        exact List.mem_filter.mpr ⟨hd, by simp [hsup]⟩
      exact List.mem_map_of_mem _ hmem
  · refine ⟨_, _, rfl, rfl, ?_⟩
    decide

/-- Witness for C7 at the concrete 5-document scenario. -/
theorem partial_failure_isolation_witness :
    (∃ s' rep, (runTraced embed0 3 wcfg fiveDocs emptyStore).1 = .ok (s', rep)
       ∧ rep.documents_seen = fiveDocs.length
       ∧ rep.documents_failed = (fiveDocs.filter (fun d => !d.supported)).length
       ∧ ∀ d ∈ fiveDocs, d.supported = false →
           (d.document_id, IngestError.UnsupportedFormat) ∈ rep.errors)
    ∧ (∃ s' rep, runPipeline embed0 3 wcfg fiveDocs emptyStore = .ok (s', rep)
       ∧ rep.documents_failed = 1
       ∧ ∀ d ∈ fiveDocs, d.supported = true →
           ∀ c ∈ chunksOf wcfg d, toRecord embed0 c ∈ s'.records) :=
  partial_failure_isolation embed0 3 wcfg fiveDocs emptyStore (by decide) (Or.inl rfl)

/-! ### Claim C8 -/

lemma rank_loadEvents (docs : List Document) :
    ∀ e ∈ loadEvents docs, rank e = 0 := by
  intro e he
  obtain ⟨d, _, rfl⟩ := List.mem_map.mp he
  rfl

lemma rank_segEvents (docs : List Document) :
    ∀ e ∈ segEvents docs, rank e = 1 := by
  intro e he
  obtain ⟨d, _, rfl⟩ := List.mem_map.mp he
  rfl

lemma rank_writeEvents (embed : List Char → List Int) (cfg : Config)
    (docs : List Document) :
    ∀ e ∈ writeEvents embed cfg docs, rank e = 2 := by
  intro e he
  obtain ⟨r, _, rfl⟩ := List.mem_map.mp he
  rfl

lemma pairwise_le_of_const {t : List Event} {c : Nat} (h : ∀ e ∈ t, rank e = c) :
    t.Pairwise (fun a b => rank a ≤ rank b) := by
  induction t with
  | nil => simp
  | cons a l ih =>
    rw [List.pairwise_cons]
    refine ⟨?_, ih (fun e he => h e (List.mem_cons_of_mem _ he))⟩
    intro b hb
    rw [h a (List.mem_cons_self _ _), h b (List.mem_cons_of_mem _ hb)]

lemma pairwise_rank_append {A B : List Event} {c : Nat}
    (hA : ∀ e ∈ A, rank e = c) (hB : ∀ e ∈ B, c ≤ rank e)
    (pB : B.Pairwise (fun a b => rank a ≤ rank b)) :
    (A ++ B).Pairwise (fun a b => rank a ≤ rank b) := by
  refine List.pairwise_append.mpr ⟨pairwise_le_of_const hA, pB, ?_⟩
  intro a ha b hb
  rw [hA a ha]
  exact hB b hb

lemma persist_not_mem {t : List Event} {c : Nat} (h : ∀ e ∈ t, rank e = c)
    (hc : c ≠ 3) : Event.persist ∉ t := by
  intro hm
  exact hc ((h _ hm).symm)

/-- C8: strict corpus-wide phase ordering — in every execution the trace
is monotone in phase rank (every directory load precedes every
segmentation, every segmentation precedes every embedding/index write,
and every write precedes the persist), and the storage context is
persisted at most once.  Stages are never interleaved or pipelined across
documents. -/
theorem strict_phase_ordering (embed : List Char → List Int) (edim : Nat)
    (cfg : Config) (docs : List Document) (s : Store) :
    ((runTraced embed edim cfg docs s).2).Pairwise (fun a b => rank a ≤ rank b)
    ∧ ((runTraced embed edim cfg docs s).2).count Event.persist ≤ 1 := by
  rw [runTraced]
  by_cases hc : cfg.chunk_size ≤ cfg.chunk_overlap ∨ cfg.chunk_size = 0
  · rw [if_pos hc]
    refine ⟨pairwise_le_of_const (rank_loadEvents docs), ?_⟩
    rw [show ((Except.error IngestError.ConfigError, loadEvents docs) :
        Except IngestError (Store × Report) × List Event).2 = loadEvents docs from rfl]
    rw [List.count_eq_zero.mpr (persist_not_mem (rank_loadEvents docs) (by decide))]
    omega
  · rw [if_neg hc]
    cases he : ensureCollection s edim with
    | error e =>
      dsimp only
      constructor
      · exact pairwise_rank_append (rank_loadEvents docs)
          (fun b hb => by rw [rank_segEvents docs b hb]; omega)
          (pairwise_le_of_const (rank_segEvents docs))
      · rw [List.count_append]
        rw [List.count_eq_zero.mpr (persist_not_mem (rank_loadEvents docs) (by decide))]
        rw [List.count_eq_zero.mpr (persist_not_mem (rank_segEvents docs) (by decide))]
        omega
    | ok s₁ =>
      dsimp only
      rw [List.append_assoc, List.append_assoc]
      have hsingle : ∀ e ∈ [Event.persist], rank e = 3 := by
        intro e he'
        rw [List.mem_singleton] at he'
        subst he'
        rfl
      have p3 : (writeEvents embed cfg docs ++ [Event.persist]).Pairwise
          (fun a b => rank a ≤ rank b) :=
        pairwise_rank_append (rank_writeEvents embed cfg docs)
          (fun b hb => by rw [hsingle b hb]; omega)
          (pairwise_le_of_const hsingle)
      have p2 : (segEvents docs ++ (writeEvents embed cfg docs ++ [Event.persist])).Pairwise
          (fun a b => rank a ≤ rank b) := by
        refine pairwise_rank_append (rank_segEvents docs) ?_ p3
        intro b hb
        rcases List.mem_append.mp hb with h | h
        · rw [rank_writeEvents embed cfg docs b h]; omega
        · rw [hsingle b h]; omega
      constructor
      · refine pairwise_rank_append (rank_loadEvents docs) ?_ p2
        intro b _
        omega
      · rw [List.count_append, List.count_append, List.count_append]
        rw [List.count_eq_zero.mpr (persist_not_mem (rank_loadEvents docs) (by decide))]
        rw [List.count_eq_zero.mpr (persist_not_mem (rank_segEvents docs) (by decide))]
        rw [List.count_eq_zero.mpr (persist_not_mem (rank_writeEvents embed cfg docs) (by decide))]
        simp

/-! ### Claim C9 -/

/-- C9: the configuration passed to the splitter is the compile-time
constant pair `chunk_size = 512`, `chunk_overlap = 64`, it satisfies the
validity precondition `0 < chunk_size` and `chunk_overlap < chunk_size`,
and consequently no run of the program with this configuration can ever
fail with `ConfigError` — the invalid-configuration branch is
unreachable. -/
theorem config_branch_unreachable :
    splitterConfig = { chunk_size := 512, chunk_overlap := 64 }
    ∧ (0 < splitterConfig.chunk_size
        ∧ splitterConfig.chunk_overlap < splitterConfig.chunk_size)
    ∧ ∀ (embed : List Char → List Int) (edim : Nat) (docs : List Document) (s : Store),
        (runTraced embed edim splitterConfig docs s).1 ≠ .error .ConfigError := by
  refine ⟨rfl, by decide, ?_⟩
  intro embed edim docs s
  rw [runTraced, if_neg (by decide)]
  cases he : ensureCollection s edim with
  | error e =>
    have herr : e = IngestError.SchemaMismatchError := by
      unfold ensureCollection at he
      split at he
      · exact absurd he (by simp)
      · split at he
        · exact absurd he (by simp)
        · simp only [Except.error.injEq] at he
          exact he.symm
    rw [herr]
    simp
  | ok s₁ =>
    simp

/-! ### Claim C10 -/

/-- C10: the explicit persist of the storage context happens exactly when
every preceding stage — directory read, configuration validation,
segmentation, collection check, embedding and index construction —
completed without an error: the run result is `.ok` if and only if the
trace contains a persist action; on any earlier failure no persist is
ever performed. -/
theorem persist_iff_success (embed : List Char → List Int) (edim : Nat)
    (cfg : Config) (docs : List Document) (s : Store) :
    (∃ v, (runTraced embed edim cfg docs s).1 = .ok v)
      ↔ Event.persist ∈ (runTraced embed edim cfg docs s).2 := by
  rw [runTraced]
  by_cases hc : cfg.chunk_size ≤ cfg.chunk_overlap ∨ cfg.chunk_size = 0
  · rw [if_pos hc]
    dsimp only
    constructor
    · rintro ⟨v, hv⟩
      exact absurd hv (by simp)
    · intro hm
      exact absurd hm (persist_not_mem (rank_loadEvents docs) (by decide))
  · rw [if_neg hc]
    cases he : ensureCollection s edim with
    | error e =>
      dsimp only
      constructor
      · rintro ⟨v, hv⟩
        exact absurd hv (by simp)
      · intro hm
        rcases List.mem_append.mp hm with h | h
        · exact absurd h (persist_not_mem (rank_loadEvents docs) (by decide))
        · exact absurd h (persist_not_mem (rank_segEvents docs) (by decide))
    | ok s₁ =>
      dsimp only
      constructor
      · intro _
        exact List.mem_append_right _ (List.mem_singleton.mpr rfl)
      · intro _
        exact ⟨_, rfl⟩

end Ingest
